import Mathlib

/-!
# Shallow embedding of the ark-vrf VRF-AD library

This file embeds the protocol layer of the ark-vrf library (suites, the
IETF, batch-compatible, Pedersen and Thin VRF schemes, the ring-proof
sizing/builder glue, the codecs and the try-and-increment hash-to-curve)
and proves the specification claims about it.

Modelling conventions:
* The elliptic-curve group of prime order is an arbitrary additive
  commutative group `P` with a scalar-multiplication module structure over
  the scalar field `F` (a commutative ring; `ZMod q` in concrete
  instances).  This mirrors the `AffineRepr` bound of the source, which
  guarantees points live in the prime-order subgroup.
* The overridable `Suite` trait methods (`nonce`, `challenge`, hashing,
  encodings) are fields of a `Suite` structure: the source code is generic
  over them and the claims quantify over "every suite".
* Byte strings are `List Nat` (each entry a byte value).
* Rust `Result<T, Error>` is `Except Error T`; `&mut self` methods return
  the updated value.
-/

namespace ArkVrf

/-! ## Byte-string utilities -/

/-- Little-endian interpretation of a byte list as a natural number
(`from_le_bytes_mod_order` before the modular reduction). -/
def natFromLeBytes : List Nat → Nat
  | [] => 0
  | b :: rest => b + 256 * natFromLeBytes rest

/-- Big-endian interpretation of a byte list. -/
def natFromBeBytes (l : List Nat) : Nat :=
  natFromLeBytes l.reverse

/-- Fixed-width little-endian encoding of a natural number (canonical
arkworks serialization of a field element value). -/
def natToLeBytes : Nat → Nat → List Nat
  | 0, _ => []
  | len + 1, v => v % 256 :: natToLeBytes len (v / 256)

/-- Little-endian bytes of `i as u32` (`u32::to_le_bytes`). -/
def u32LeBytes (i : Nat) : List Nat :=
  natToLeBytes 4 (i % 2 ^ 32)

theorem natToLeBytes_length (len v : Nat) : (natToLeBytes len v).length = len := by
  induction len generalizing v with
  | zero => rfl
  | succ n ih => simp [natToLeBytes, ih]

theorem natFromLeBytes_natToLeBytes (len v : Nat) (h : v < 256 ^ len) :
    natFromLeBytes (natToLeBytes len v) = v := by
  induction len generalizing v with
  | zero => simp [natToLeBytes, natFromLeBytes]; omega
  | succ n ih =>
    simp only [natToLeBytes, natFromLeBytes]
    rw [ih (v / 256) (by
      have : 256 ^ (n + 1) = 256 * 256 ^ n := by ring
      omega)]
    omega

/-! ## Errors (lib.rs) -/

/-- Overarching errors of the library. -/
inductive Error where
  | VerificationFailure
  | InvalidData
deriving DecidableEq

instance {e a : Type} [DecidableEq e] [DecidableEq a] : DecidableEq (Except e a)
  | .ok x, .ok y =>
    if h : x = y then .isTrue (by rw [h]) else .isFalse (fun hc => h (Except.ok.inj hc))
  | .error x, .error y =>
    if h : x = y then .isTrue (by rw [h]) else .isFalse (fun hc => h (Except.error.inj hc))
  | .ok _, .error _ => .isFalse (fun hc => Except.noConfusion hc)
  | .error _, .ok _ => .isFalse (fun hc => Except.noConfusion hc)

/-! ## Cipher suite (lib.rs `trait Suite`, pedersen.rs `trait PedersenSuite`)

The structure bundles the associated constants and the (overridable)
methods of the `Suite` and `PedersenSuite` traits that the proof schemes
use.  `F` is the scalar field, `P` the prime-order point group. -/

structure Suite (F P : Type) where
  /-- Suite identifier byte string (`SUITE_ID`). -/
  suiteId : List Nat
  /-- Challenge encoded length in bytes (`CHALLENGE_LEN`). -/
  challengeLen : Nat
  /-- Nonce generation (`Suite::nonce`). -/
  nonce : F → P → F
  /-- Challenge generation over encoded points and additional data
  (`Suite::challenge`). -/
  challenge : List P → List Nat → F
  /-- Suite generator (`Suite::generator`, which defaults to
  `Affine::generator`; no built-in suite overrides it, so the source's two
  generator expressions coincide and are modelled as one field). -/
  generator : P
  /-- Pedersen blinding base (`PedersenSuite::BLINDING_BASE`). -/
  blindingBase : P
  /-- The suite hash function (`Suite::Hasher` digest of a byte string). -/
  hasher : List Nat → List Nat
  /-- Codec point encoding (`Codec::point_encode_into`). -/
  pointEncode : P → List Nat
  /-- Codec scalar encoding (`Codec::scalar_encode_into`). -/
  scalarEncode : F → List Nat
  /-- Scalar from little-endian bytes (`from_le_bytes_mod_order`). -/
  scalarFromLe : List Nat → F
  /-- Scalar from big-endian bytes (`from_be_bytes_mod_order`). -/
  scalarFromBe : List Nat → F
  /-- Deterministic pseudorandom generator block output: seed and block
  index to a 16-byte block (`ChaCha20Rng::fill_bytes` in thin.rs batch
  verification; the PRG itself is an external collaborator). -/
  prg : List Nat → Nat → List Nat

variable {F P : Type} [CommRing F] [AddCommGroup P] [Module F P]

/-! ## Secret splitting (utils/mod.rs) -/

/-- Point scalar multiplication with secret splitting (`mul_secret` with
the `secret-split` feature).  The secret scalar is split into the sum of
two scalars; the random summand `x1` drawn from `OsRng` is passed
explicitly. -/
def mul_secret (p : P) (s x1 : F) : P :=
  x1 • p + (s - x1) • p

theorem mul_secret_eq_smul (p : P) (s x1 : F) : mul_secret p s x1 = s • p := by
  unfold mul_secret
  rw [← add_smul]
  congr 1
  ring

/-! ## Key and point types (lib.rs) -/

/-- Secret key: the private scalar plus the cached public point. -/
structure Secret (F P : Type) where
  scalar : F
  public : P

/-- Secret construction from a scalar (`Secret::from_scalar`):
the cached public key is `generator * scalar`. -/
def Secret.fromScalar (S : Suite F P) (scalar : F) : Secret F P :=
  { scalar := scalar, public := scalar • S.generator }

/-- VRF output point (`Secret::output`): `smul!(input, scalar)`, which is
`mul_secret` under the `secret-split` feature. -/
def Secret.output (sk : Secret F P) (input : P) (x1 : F) : P :=
  mul_secret input sk.scalar x1

/-! ## Standard IETF VRF (ietf.rs) -/

/-- IETF VRF proof: challenge and response scalars. -/
structure IetfProof (F : Type) where
  c : F
  s : F
deriving DecidableEq

/-- IETF `Prover::prove` (ietf.rs): `k = nonce(sk, input)`, `k_b = k*G`,
`k_h = k*input`, `c = challenge(pk, input, output, k_b, k_h, ad)`,
`s = k + c*sk`. -/
def ietf_prove (S : Suite F P) (sk : Secret F P) (input output : P) (ad : List Nat) :
    IetfProof F :=
  let k := S.nonce sk.scalar input
  let k_b := k • S.generator
  let k_h := k • input
  let c := S.challenge [sk.public, input, output, k_b, k_h] ad
  { c := c, s := k + c * sk.scalar }

/-- IETF `Verifier::verify` (ietf.rs): recompute `u = s*G - c*pk`,
`v = s*input - c*output`, accept iff the recomputed challenge equals
`proof.c`. -/
def ietf_verify [DecidableEq F] (S : Suite F P) (pk input output : P) (ad : List Nat)
    (proof : IetfProof F) : Except Error Unit :=
  let u := proof.s • S.generator - proof.c • pk
  let v := proof.s • input - proof.c • output
  let c_exp := S.challenge [pk, input, output, u, v] ad
  if c_exp = proof.c then .ok () else .error .VerificationFailure

/-! ## Batch-compatible VRF (ietf_bc.rs) -/

/-- Batch-compatible proof: nonce commitments `u = k*G`, `v = k*H` and the
response scalar `s`. -/
structure BcProof (F P : Type) where
  u : P
  v : P
  s : F
deriving DecidableEq

/-- Batch-compatible `Prover::prove` (ietf_bc.rs).  The two nonce
commitments use `smul!`, i.e. `mul_secret`; `rnd i` is the i-th random
split summand. -/
def ietf_bc_prove (S : Suite F P) (sk : Secret F P) (input output : P) (ad : List Nat)
    (rnd : Nat → F) : BcProof F P :=
  let k := S.nonce sk.scalar input
  let u := mul_secret S.generator k (rnd 0)
  let v := mul_secret input k (rnd 1)
  let c := S.challenge [sk.public, input, output, u, v] ad
  { u := u, v := v, s := k + c * sk.scalar }

/-- Batch-compatible `Verifier::verify` (ietf_bc.rs): recompute `c` and
check `U + c*pk == s*G` and `V + c*Gamma == s*H`. -/
def ietf_bc_verify [DecidableEq P] (S : Suite F P) (pk input output : P) (ad : List Nat)
    (proof : BcProof F P) : Except Error Unit :=
  let c := S.challenge [pk, input, output, proof.u, proof.v] ad
  if proof.u + c • pk ≠ proof.s • S.generator then .error .VerificationFailure
  else if proof.v + c • output ≠ proof.s • input then .error .VerificationFailure
  else .ok ()

/-- Deferred verification data for one batch-compatible proof
(ietf_bc.rs `BatchItem`). -/
structure BcBatchItem (F P : Type) where
  c : F
  pk : P
  input : P
  output : P
  u : P
  v : P
  s : F

/-- Batch-compatible `BatchVerifier::prepare` (ietf_bc.rs): compute the
challenge and package all data. -/
def ietf_bc_prepare (S : Suite F P) (pk input output : P) (ad : List Nat)
    (proof : BcProof F P) : BcBatchItem F P :=
  { c := S.challenge [pk, input, output, proof.u, proof.v] ad
    pk := pk, input := input, output := output
    u := proof.u, v := proof.v, s := proof.s }

/-- Step 1 of batch verification: transcript
`S_T = concat(H_i || U_i || V_i || s_i)` over all items. -/
def bc_transcript (S : Suite F P) (items : List (BcBatchItem F P)) : List Nat :=
  items.flatMap fun e =>
    S.pointEncode e.input ++ S.pointEncode e.u ++ S.pointEncode e.v ++ S.scalarEncode e.s

/-- Step 2/3 of batch verification: `h_i = Hash(suite || 0x04 || S_T ||
i_le_bytes || 0x00)` split into the two half scalars `(l_i, r_i)`. -/
def bc_weights (S : Suite F P) (items : List (BcBatchItem F P)) (i : Nat) : F × F :=
  let h := S.hasher (S.suiteId ++ [0x04] ++ bc_transcript S items ++ u32LeBytes i ++ [0x00])
  let clen := S.challengeLen
  (S.scalarFromLe (h.take clen), S.scalarFromLe ((h.drop clen).take clen))

/-- Step 4 of batch verification: per-proof MSM terms (base point paired
with its scalar) plus the accumulated shared generator scalar
`sum(r_i * s_i)`, built in loop order starting at index `i`. -/
def bc_msm_terms (w : Nat → F × F) : Nat → List (BcBatchItem F P) → List (P × F) × F
  | _, [] => ([], 0)
  | i, e :: rest =>
    let l := (w i).1
    let r := (w i).2
    let acc := bc_msm_terms w (i + 1) rest
    ((e.pk, -(r * e.c)) :: (e.u, -r) :: (e.input, l * e.s) ::
       (e.output, -(l * e.c)) :: (e.v, -l) :: acc.1,
     r * e.s + acc.2)

/-- Multi-scalar multiplication (`msm_unchecked`): sum of `scalar • base`. -/
def msm (terms : List (P × F)) : P :=
  (terms.map fun t => t.2 • t.1).sum

/-- Batch-compatible `BatchVerifier::verify` (ietf_bc.rs): the empty batch
is accepted; otherwise a single `(5n+1)`-term MSM must vanish. -/
def ietf_bc_batch_verify [DecidableEq P] (S : Suite F P) (items : List (BcBatchItem F P)) :
    Except Error Unit :=
  if items.isEmpty then .ok ()
  else
    let acc := bc_msm_terms (bc_weights S items) 0 items
    let result := msm (acc.1 ++ [(S.generator, acc.2)])
    if result ≠ 0 then .error .VerificationFailure else .ok ()

/-! ## Pedersen (key-hiding) VRF (pedersen.rs) -/

/-- Pedersen blinding factor (`PedersenSuite::blinding`): hash of
`SUITE_ID || 0xCC || scalar_encode(secret) || point_encode(input) || aux
|| 0x00` reduced from big-endian bytes. -/
def blinding (S : Suite F P) (secret : F) (input : P) (aux : List Nat) : F :=
  let buf := S.suiteId ++ [0xCC] ++ S.scalarEncode secret ++ S.pointEncode input
      ++ aux ++ [0x00]
  S.scalarFromBe (S.hasher buf)

/-- Pedersen VRF proof (pedersen.rs `Proof`). -/
structure PedersenProof (F P : Type) where
  pk_com : P
  r : P
  ok : P
  s : F
  sb : F
deriving DecidableEq

/-- Public key commitment stored in the proof (`Proof::key_commitment`). -/
def PedersenProof.key_commitment (proof : PedersenProof F P) : P :=
  proof.pk_com

/-- Pedersen `Prover::prove` (pedersen.rs): returns the proof together
with the blinding factor.  The five `smul!` point multiplications use
`mul_secret`; `rnd i` is the i-th random split summand. -/
def pedersen_prove (S : Suite F P) (sk : Secret F P) (input output : P) (ad : List Nat)
    (rnd : Nat → F) : PedersenProof F P × F :=
  let b := blinding S sk.scalar input ad
  let k := S.nonce sk.scalar input
  let kb := S.nonce b input
  let xg := mul_secret S.generator sk.scalar (rnd 0)
  let bb := mul_secret S.blindingBase b (rnd 1)
  let pk_com := xg + bb
  let kg := mul_secret S.generator k (rnd 2)
  let kbb := mul_secret S.blindingBase kb (rnd 3)
  let r := kg + kbb
  let ok := mul_secret input k (rnd 4)
  let c := S.challenge [pk_com, input, output, r, ok] ad
  ({ pk_com := pk_com, r := r, ok := ok, s := k + c * sk.scalar, sb := kb + c * b }, b)

/-- Pedersen `Verifier::verify` (pedersen.rs): keyed by input, output,
additional data and proof only (no public key); recompute `c` and check
`Ok + c*O = s*I` and `R + c*Yb = s*G + sb*B`. -/
def pedersen_verify [DecidableEq P] (S : Suite F P) (input output : P) (ad : List Nat)
    (proof : PedersenProof F P) : Except Error Unit :=
  let c := S.challenge [proof.pk_com, input, output, proof.r, proof.ok] ad
  if c • output + proof.ok ≠ proof.s • input then .error .VerificationFailure
  else if c • proof.pk_com + proof.r ≠ proof.s • S.generator + proof.sb • S.blindingBase then
    .error .VerificationFailure
  else .ok ()

/-! ## Thin VRF (thin.rs) -/

/-- Thin VRF proof: nonce commitment on the merged input and response. -/
structure ThinProof (F P : Type) where
  r : P
  s : F
deriving DecidableEq

/-- Delinearization weights (thin.rs `delinearize`): hash of
`SUITE_ID || 0x11 || enc(G) || enc(pk) || enc(input) || enc(output) ||
0x00`, split into two 128-bit little-endian scalars. -/
def delinearize (S : Suite F P) (public input output : P) : F × F :=
  let h := S.hasher (S.suiteId ++ [0x11] ++ S.pointEncode S.generator
      ++ S.pointEncode public ++ S.pointEncode input ++ S.pointEncode output ++ [0x00])
  (S.scalarFromLe (h.take 16), S.scalarFromLe ((h.drop 16).take 16))

/-- Thin VRF challenge (thin.rs `thin_challenge`): hash of
`SUITE_ID || 0x12 || enc(pk) || enc(input) || enc(output) || enc(r) || ad
|| 0x00`, truncated to `CHALLENGE_LEN` bytes and reduced big-endian. -/
def thin_challenge (S : Suite F P) (public input output r : P) (ad : List Nat) : F :=
  let h := S.hasher (S.suiteId ++ [0x12] ++ S.pointEncode public ++ S.pointEncode input
      ++ S.pointEncode output ++ S.pointEncode r ++ ad ++ [0x00])
  S.scalarFromBe (h.take S.challengeLen)

/-- Thin `Prover::prove` (thin.rs): merged input `I_m = z0*I + z1*G`,
nonce over `I_m`, `R = k*I_m` via `smul!`, challenge, response. -/
def thin_prove (S : Suite F P) (sk : Secret F P) (input output : P) (ad : List Nat)
    (rnd : Nat → F) : ThinProof F P :=
  let z := delinearize S sk.public input output
  let i_m : P := z.1 • input + z.2 • S.generator
  let k := S.nonce sk.scalar i_m
  let r := mul_secret i_m k (rnd 0)
  let c := thin_challenge S sk.public input output r ad
  { r := r, s := k + c * sk.scalar }

/-- Thin `Verifier::verify` (thin.rs): recompute the merged pair and the
challenge, then check `R + c*O_m == s*I_m`. -/
def thin_verify [DecidableEq P] (S : Suite F P) (pk input output : P) (ad : List Nat)
    (proof : ThinProof F P) : Except Error Unit :=
  let z := delinearize S pk input output
  let i_m : P := z.1 • input + z.2 • S.generator
  let o_m : P := z.1 • output + z.2 • pk
  let c := thin_challenge S pk input output proof.r ad
  if proof.r + c • o_m ≠ proof.s • i_m then .error .VerificationFailure else .ok ()

/-- Deferred verification data for one Thin proof (thin.rs `BatchItem`). -/
structure ThinBatchItem (F P : Type) where
  c : F
  i_m : P
  o_m : P
  r : P
  s : F

/-- Thin `BatchVerifier::prepare` (thin.rs). -/
def thin_prepare (S : Suite F P) (public input output : P) (ad : List Nat)
    (proof : ThinProof F P) : ThinBatchItem F P :=
  let z := delinearize S public input output
  { c := thin_challenge S public input output proof.r ad
    i_m := z.1 • input + z.2 • S.generator
    o_m := z.1 • output + z.2 • public
    r := proof.r, s := proof.s }

/-- Seed of the deterministic weight RNG (thin.rs batch verify): hash of
all `(c_i, s_i)` encodings, truncated/zero-padded to 32 bytes. -/
def thin_batch_seed (S : Suite F P) (items : List (ThinBatchItem F P)) : List Nat :=
  let h := S.hasher (items.flatMap fun e => S.scalarEncode e.c ++ S.scalarEncode e.s)
  h.take 32 ++ List.replicate (32 - min h.length 32) 0

/-- The i-th 128-bit random weight drawn from the seeded PRG. -/
def thin_weights (S : Suite F P) (items : List (ThinBatchItem F P)) (i : Nat) : F :=
  S.scalarFromLe (S.prg (thin_batch_seed S items) i)

/-- The 3n-term MSM of Thin batch verification, built in loop order. -/
def thin_msm_terms (w : Nat → F) : Nat → List (ThinBatchItem F P) → List (P × F)
  | _, [] => []
  | i, e :: rest =>
    (e.r, w i) :: (e.o_m, w i * e.c) :: (e.i_m, -(w i * e.s)) :: thin_msm_terms w (i + 1) rest

/-- Thin `BatchVerifier::verify` (thin.rs): the empty batch is accepted;
otherwise the weighted 3n-term MSM must vanish. -/
def thin_batch_verify [DecidableEq P] (S : Suite F P) (items : List (ThinBatchItem F P)) :
    Except Error Unit :=
  if items.isEmpty then .ok ()
  else if msm (thin_msm_terms (thin_weights S items) 0 items) ≠ 0 then
    .error .VerificationFailure
  else .ok ()

/-! ## Completeness of the single-proof schemes -/

theorem ietf_prove_verify [DecidableEq F] (S : Suite F P) (x : F) (input output : P)
    (ad : List Nat) (hout : output = x • input) :
    ietf_verify S (x • S.generator) input output ad
      (ietf_prove S { scalar := x, public := x • S.generator } input output ad) = .ok () := by
  unfold ietf_prove ietf_verify
  simp only []
  have hu : ∀ c : F, (S.nonce x input + c * x) • S.generator - c • (x • S.generator)
      = S.nonce x input • S.generator := by
    intro c; module
  have hv : ∀ c : F, (S.nonce x input + c * x) • input - c • output
      = S.nonce x input • input := by
    intro c; rw [hout]; module
  rw [hu, hv, if_pos rfl]

theorem ietf_bc_prove_verify [DecidableEq P] (S : Suite F P) (x : F) (input output : P)
    (ad : List Nat) (rnd : Nat → F) (hout : output = x • input) :
    ietf_bc_verify S (x • S.generator) input output ad
      (ietf_bc_prove S { scalar := x, public := x • S.generator } input output ad rnd)
      = .ok () := by
  unfold ietf_bc_prove ietf_bc_verify
  simp only [mul_secret_eq_smul]
  have h1 : ∀ c : F, S.nonce x input • S.generator + c • (x • S.generator)
      = (S.nonce x input + c * x) • S.generator := by
    intro c; module
  have h2 : ∀ c : F, S.nonce x input • input + c • output
      = (S.nonce x input + c * x) • input := by
    intro c; rw [hout]; module
  rw [if_neg (not_not_intro (h1 _)), if_neg (not_not_intro (h2 _))]

theorem thin_prove_verify [DecidableEq P] (S : Suite F P) (x : F) (input output : P)
    (ad : List Nat) (rnd : Nat → F) (hout : output = x • input) :
    thin_verify S (x • S.generator) input output ad
      (thin_prove S { scalar := x, public := x • S.generator } input output ad rnd)
      = .ok () := by
  unfold thin_prove thin_verify
  simp only [mul_secret_eq_smul]
  set z := delinearize S (x • S.generator) input output with hz
  have key : ∀ c : F,
      S.nonce x (z.1 • input + z.2 • S.generator) • (z.1 • input + z.2 • S.generator)
        + c • (z.1 • output + z.2 • (x • S.generator))
      = (S.nonce x (z.1 • input + z.2 • S.generator) + c * x)
          • (z.1 • input + z.2 • S.generator) := by
    intro c; rw [hout]; module
  rw [if_neg (not_not_intro (key _))]

theorem pedersen_prove_verify [DecidableEq P] (S : Suite F P) (x : F) (input output : P)
    (ad : List Nat) (rnd : Nat → F) (hout : output = x • input) :
    pedersen_verify S input output ad
      (pedersen_prove S { scalar := x, public := x • S.generator } input output ad rnd).1
      = .ok () := by
  unfold pedersen_prove pedersen_verify
  simp only [mul_secret_eq_smul]
  have h1 : ∀ c : F, c • output + S.nonce x input • input
      = (S.nonce x input + c * x) • input := by
    intro c; rw [hout]; module
  have h2 : ∀ c b kb : F,
      c • (x • S.generator + b • S.blindingBase)
          + (S.nonce x input • S.generator + kb • S.blindingBase)
      = (S.nonce x input + c * x) • S.generator + (kb + c * b) • S.blindingBase := by
    intro c b kb; module
  rw [if_neg (not_not_intro (h1 _)), if_neg (not_not_intro (h2 _ _ _))]

/-- C1.  Completeness of single-proof verification: for every suite,
secret key `sk` with `pk = sk.public()`, every input point, output
`O = sk.output(I)` and additional data, the proof returned by `prove` is
accepted by the matching `verify` for the standard IETF scheme, the
batch-compatible scheme and the Thin VRF scheme. -/
theorem C1_single_proof_completeness [DecidableEq F] [DecidableEq P]
    (S : Suite F P) (x : F) (input : P) (ad : List Nat)
    (r0 : F) (rndBc rndThin : Nat → F) :
    let sk := Secret.fromScalar S x
    let out := sk.output input r0
    ietf_verify S sk.public input out ad (ietf_prove S sk input out ad) = .ok () ∧
    ietf_bc_verify S sk.public input out ad (ietf_bc_prove S sk input out ad rndBc)
      = .ok () ∧
    thin_verify S sk.public input out ad (thin_prove S sk input out ad rndThin)
      = .ok () := by
  intro sk out
  have hout : out = x • input := mul_secret_eq_smul input x r0
  exact ⟨ietf_prove_verify S x input out ad hout,
    ietf_bc_prove_verify S x input out ad rndBc hout,
    thin_prove_verify S x input out ad rndThin hout⟩

/-- C2.  Pedersen scheme completeness and key-commitment consistency: for
every secret key, input, output `O = sk.output(I)` and additional data,
Pedersen `prove` returns a pair `(proof, b)` such that `verify(I, O, ad,
proof)` succeeds (no public key argument), and `proof.key_commitment()`
equals `sk * generator + b * BLINDING_BASE`. -/
theorem C2_pedersen_completeness [DecidableEq P]
    (S : Suite F P) (x : F) (input : P) (ad : List Nat) (r0 : F) (rnd : Nat → F) :
    let sk := Secret.fromScalar S x
    let out := sk.output input r0
    let pr := pedersen_prove S sk input out ad rnd
    pedersen_verify S input out ad pr.1 = .ok () ∧
    pr.1.key_commitment = x • S.generator + pr.2 • S.blindingBase := by
  intro sk out pr
  have hout : out = x • input := mul_secret_eq_smul input x r0
  constructor
  · exact pedersen_prove_verify S x input out ad rnd hout
  · show (pedersen_prove S sk input out ad rnd).1.key_commitment
      = x • S.generator + (pedersen_prove S sk input out ad rnd).2 • S.blindingBase
    simp [pedersen_prove, PedersenProof.key_commitment, mul_secret_eq_smul, sk,
      Secret.fromScalar]

/-- C6.  Determinism of proving as a two-run property: for each of the
IETF, batch-compatible, Pedersen and Thin schemes, two calls to `prove`
with identical secret scalar, input point, output point and additional
data return equal proofs (for Pedersen, equal blinding scalars too), even
when the internal point multiplications use the secret-split path, and
`mul_secret(p, s)` equals `p * s` for every point, scalar and random
split. -/
theorem C6_prove_determinism :
    (∀ (p : P) (s x1 : F), mul_secret p s x1 = s • p) ∧
    (∀ (S : Suite F P) (sk : Secret F P) (input output : P) (ad : List Nat),
      ietf_prove S sk input output ad = ietf_prove S sk input output ad) ∧
    (∀ (S : Suite F P) (sk : Secret F P) (input output : P) (ad : List Nat)
      (rnd rnd' : Nat → F),
      ietf_bc_prove S sk input output ad rnd = ietf_bc_prove S sk input output ad rnd') ∧
    (∀ (S : Suite F P) (sk : Secret F P) (input output : P) (ad : List Nat)
      (rnd rnd' : Nat → F),
      pedersen_prove S sk input output ad rnd = pedersen_prove S sk input output ad rnd') ∧
    (∀ (S : Suite F P) (sk : Secret F P) (input output : P) (ad : List Nat)
      (rnd rnd' : Nat → F),
      thin_prove S sk input output ad rnd = thin_prove S sk input output ad rnd') := by
  refine ⟨mul_secret_eq_smul, fun _ _ _ _ _ => rfl, ?_, ?_, ?_⟩
  · intro S sk input output ad rnd rnd'
    simp [ietf_bc_prove, mul_secret_eq_smul]
  · intro S sk input output ad rnd rnd'
    simp [pedersen_prove, mul_secret_eq_smul]
  · intro S sk input output ad rnd rnd'
    simp [thin_prove, mul_secret_eq_smul]

/-! ## Batch verification completeness -/

theorem ietf_bc_verify_ok_iff [DecidableEq P] (S : Suite F P) (pk input output : P)
    (ad : List Nat) (proof : BcProof F P) :
    ietf_bc_verify S pk input output ad proof = .ok () ↔
      proof.u + S.challenge [pk, input, output, proof.u, proof.v] ad • pk
          = proof.s • S.generator ∧
      proof.v + S.challenge [pk, input, output, proof.u, proof.v] ad • output
          = proof.s • input := by
  unfold ietf_bc_verify
  simp only [ne_eq]
  split_ifs with h1 h2 <;> simp_all

theorem thin_verify_ok_iff [DecidableEq P] (S : Suite F P) (pk input output : P)
    (ad : List Nat) (proof : ThinProof F P) :
    thin_verify S pk input output ad proof = .ok () ↔
      proof.r
          + thin_challenge S pk input output proof.r ad
            • ((delinearize S pk input output).1 • output
                + (delinearize S pk input output).2 • pk)
        = proof.s
            • ((delinearize S pk input output).1 • input
                + (delinearize S pk input output).2 • S.generator) := by
  unfold thin_verify
  simp only [ne_eq]
  split_ifs with h1 <;> simp_all

/-- Per-item validity used by batch-compatible batch verification: the two
single-verification equations for the already-computed challenge. -/
def BcBatchItem.valid (G : P) (e : BcBatchItem F P) : Prop :=
  e.u + e.c • e.pk = e.s • G ∧ e.v + e.c • e.output = e.s • e.input

theorem bc_msm_sum_eq_zero (G : P) (w : Nat → F × F) (items : List (BcBatchItem F P))
    (h : ∀ e ∈ items, e.valid G) (i : Nat) :
    msm ((bc_msm_terms w i items).1 ++ [(G, (bc_msm_terms w i items).2)]) = 0 := by
  induction items generalizing i with
  | nil => simp [bc_msm_terms, msm]
  | cons e rest ih =>
    obtain ⟨h1, h2⟩ := h e (by simp)
    have ihr := ih (fun e' he' => h e' (by simp [he'])) (i + 1)
    have hu : e.u = e.s • G - e.c • e.pk := by rw [← h1]; abel
    have hv : e.v = e.s • e.input - e.c • e.output := by rw [← h2]; abel
    simp only [bc_msm_terms, msm, List.map_append, List.map_cons, List.sum_cons,
      List.sum_append, List.map_nil, List.sum_nil] at ihr ⊢
    rw [hu, hv]
    rw [show ∀ a b : F, (a + b) • G = a • G + b • G from fun a b => add_smul a b G]
    set T := ((bc_msm_terms w (i + 1) rest).1.map fun t => t.2 • t.1).sum with hT
    set g := (bc_msm_terms w (i + 1) rest).2 with hg
    have : T + (g • G + 0) = 0 := ihr
    have hrw : -((w i).2 * e.c) • e.pk + (-(w i).2 • (e.s • G - e.c • e.pk)
        + ((w i).1 * e.s) • e.input + (-((w i).1 * e.c)) • e.output
        + (-(w i).1 • (e.s • e.input - e.c • e.output)) + T)
        + (((w i).2 * e.s) • G + g • G + 0)
        = (T + (g • G + 0)) := by module
    calc -((w i).2 * e.c) • e.pk + (-(w i).2 • (e.s • G - e.c • e.pk)
          + (((w i).1 * e.s) • e.input + ((-((w i).1 * e.c)) • e.output
          + ((-(w i).1 • (e.s • e.input - e.c • e.output)) + T))))
          + (((w i).2 * e.s) • G + g • G + 0)
        = -((w i).2 * e.c) • e.pk + (-(w i).2 • (e.s • G - e.c • e.pk)
          + ((w i).1 * e.s) • e.input + (-((w i).1 * e.c)) • e.output
          + (-(w i).1 • (e.s • e.input - e.c • e.output)) + T)
          + (((w i).2 * e.s) • G + g • G + 0) := by abel
      _ = T + (g • G + 0) := hrw
      _ = 0 := ihr

/-- Per-item validity used by Thin batch verification. -/
def ThinBatchItem.valid (e : ThinBatchItem F P) : Prop :=
  e.r + e.c • e.o_m = e.s • e.i_m

theorem thin_msm_sum_eq_zero (w : Nat → F) (items : List (ThinBatchItem F P))
    (h : ∀ e ∈ items, e.valid) (i : Nat) :
    msm (thin_msm_terms w i items) = 0 := by
  induction items generalizing i with
  | nil => simp [thin_msm_terms, msm]
  | cons e rest ih =>
    have h1 := h e (by simp)
    have ihr := ih (fun e' he' => h e' (by simp [he'])) (i + 1)
    have hr : e.r = e.s • e.i_m - e.c • e.o_m := by
      rw [← h1]; abel
    simp only [thin_msm_terms, msm, List.map_cons, List.sum_cons] at ihr ⊢
    rw [hr, ihr]
    module

theorem ietf_bc_batch_verify_of_valid [DecidableEq P] (S : Suite F P)
    (items : List (BcBatchItem F P)) (h : ∀ e ∈ items, e.valid S.generator) :
    ietf_bc_batch_verify S items = .ok () := by
  have hz := bc_msm_sum_eq_zero S.generator (bc_weights S items) items h 0
  unfold ietf_bc_batch_verify
  simp only [ne_eq]
  split_ifs <;> simp_all

theorem thin_batch_verify_of_valid [DecidableEq P] (S : Suite F P)
    (items : List (ThinBatchItem F P)) (h : ∀ e ∈ items, e.valid) :
    thin_batch_verify S items = .ok () := by
  have hz := thin_msm_sum_eq_zero (thin_weights S items) items h 0
  unfold thin_batch_verify
  simp only [ne_eq]
  split_ifs <;> simp_all

/-- C3.  Batch-verification completeness including the empty batch: for
the batch-compatible scheme and for the Thin scheme, if every pushed item
was prepared from a tuple `(pk, I, O, ad, proof)` whose proof passes the
scheme's single `verify` for those arguments, then `BatchVerifier::verify`
returns `Ok(())`; in particular a verifier with zero pushed items returns
`Ok(())`. -/
theorem C3_batch_verify_completeness [DecidableEq P] (S : Suite F P)
    (bcItems : List (BcBatchItem F P)) (thinItems : List (ThinBatchItem F P))
    (hbc : ∀ it ∈ bcItems, ∃ pk input output ad proof,
      it = ietf_bc_prepare S pk input output ad proof ∧
      ietf_bc_verify S pk input output ad proof = .ok ())
    (hthin : ∀ it ∈ thinItems, ∃ pk input output ad proof,
      it = thin_prepare S pk input output ad proof ∧
      thin_verify S pk input output ad proof = .ok ()) :
    ietf_bc_batch_verify S bcItems = .ok () ∧
    thin_batch_verify S thinItems = .ok () ∧
    ietf_bc_batch_verify S ([] : List (BcBatchItem F P)) = .ok () ∧
    thin_batch_verify S ([] : List (ThinBatchItem F P)) = .ok () := by
  refine ⟨?_, ?_, rfl, rfl⟩
  · refine ietf_bc_batch_verify_of_valid S bcItems (fun e he => ?_)
    obtain ⟨pk, input, output, ad, proof, heq, hok⟩ := hbc e he
    rw [ietf_bc_verify_ok_iff] at hok
    subst heq
    exact hok
  · refine thin_batch_verify_of_valid S thinItems (fun e he => ?_)
    obtain ⟨pk, input, output, ad, proof, heq, hok⟩ := hthin e he
    rw [thin_verify_ok_iff] at hok
    subst heq
    exact hok

/-! ## Ring domain sizing (ring.rs `dom_utils`) -/

/-- Doubling loop of Rust `usize::next_power_of_two` (std library
function used by `dom_utils::piop_domain_size`; returns the smallest power
of two greater than or equal to the input, and 1 for inputs 0 and 1).
Explicit fuel gives structural termination; `next_power_of_two` supplies
enough fuel for the loop to finish. -/
def next_pow2_go (n : Nat) : Nat → Nat → Nat
  | 0, power => power
  | fuel + 1, power => if n ≤ power then power else next_pow2_go n fuel (power * 2)

/-- Rust `usize::next_power_of_two`. -/
def next_power_of_two (n : Nat) : Nat :=
  next_pow2_go n n 1

theorem next_pow2_go_shape (n : Nat) :
    ∀ (fuel power : Nat), ∃ t, next_pow2_go n fuel power = power * 2 ^ t := by
  intro fuel
  induction fuel with
  | zero => intro power; exact ⟨0, by simp [next_pow2_go]⟩
  | succ f ih =>
    intro power
    by_cases h : n ≤ power
    · exact ⟨0, by simp [next_pow2_go, h]⟩
    · obtain ⟨t, ht⟩ := ih (power * 2)
      exact ⟨t + 1, by simp [next_pow2_go, h, ht]; ring⟩

theorem le_next_pow2_go (n : Nat) :
    ∀ (fuel power : Nat), n ≤ power * 2 ^ fuel → n ≤ next_pow2_go n fuel power := by
  intro fuel
  induction fuel with
  | zero =>
    intro power h
    simp only [next_pow2_go]
    simp only [pow_zero, mul_one] at h
    exact h
  | succ f ih =>
    intro power h
    by_cases hle : n ≤ power
    · simp only [next_pow2_go, hle, if_true]
    · simp only [next_pow2_go, hle, if_false]
      refine ih (power * 2) ?_
      have hrw : power * 2 * 2 ^ f = power * 2 ^ (f + 1) := by ring
      rw [hrw]
      exact h

theorem next_pow2_go_min (n : Nat) :
    ∀ (fuel power : Nat), ∀ m t, m = power * 2 ^ t → n ≤ m →
      next_pow2_go n fuel power ≤ m := by
  intro fuel
  induction fuel with
  | zero =>
    intro power m t hm _
    have : 1 ≤ 2 ^ t := Nat.one_le_two_pow
    simp only [next_pow2_go]
    calc power = power * 1 := by ring
      _ ≤ power * 2 ^ t := Nat.mul_le_mul_left power this
      _ = m := hm.symm
  | succ f ih =>
    intro power m t hm hn
    by_cases hle : n ≤ power
    · have : 1 ≤ 2 ^ t := Nat.one_le_two_pow
      simp only [next_pow2_go, hle, if_true]
      calc power = power * 1 := by ring
        _ ≤ power * 2 ^ t := Nat.mul_le_mul_left power this
        _ = m := hm.symm
    · simp only [next_pow2_go, hle, if_false]
      have ht : 1 ≤ t := by
        by_contra habs
        have ht0 : t = 0 := by omega
        subst ht0
        simp at hm
        omega
      refine ih (power * 2) m (t - 1) ?_ hn
      rw [hm]
      have : t - 1 + 1 = t := by omega
      calc power * 2 ^ t = power * 2 ^ (t - 1 + 1) := by rw [this]
        _ = power * 2 * 2 ^ (t - 1) := by ring

theorem next_power_of_two_spec (n : Nat) :
    (∃ k, next_power_of_two n = 2 ^ k) ∧
    n ≤ next_power_of_two n ∧
    (∀ m t, m = 2 ^ t → n ≤ m → next_power_of_two n ≤ m) := by
  refine ⟨?_, ?_, ?_⟩
  · obtain ⟨t, ht⟩ := next_pow2_go_shape n n 1
    exact ⟨t, by simpa using ht⟩
  · exact le_next_pow2_go n n 1 (by simpa using Nat.le_of_lt (Nat.lt_two_pow n))
  · intro m t hm hn
    exact next_pow2_go_min n n 1 m t (by simpa using hm) hn

/--PIOP overhead (ring.rs `dom_utils::piop_overhead`):
`4 + MODULUS_BIT_SIZE` of the scalar field. -/
def piop_overhead (scalarBits : Nat) : Nat :=
  4 + scalarBits

/-- PIOP domain size (ring.rs `dom_utils::piop_domain_size`):
`(min_ring_capacity + piop_overhead).next_power_of_two()`. -/
def piop_domain_size (scalarBits n : Nat) : Nat :=
  next_power_of_two (n + piop_overhead scalarBits)

/-- PCS domain size from a PIOP domain size (ring.rs):
`3 * piop_domain_size + 1`. -/
def pcs_domain_size_from_piop_domain_size (d : Nat) : Nat :=
  3 * d + 1

/-- PCS domain size (ring.rs `dom_utils::pcs_domain_size`). -/
def pcs_domain_size (scalarBits n : Nat) : Nat :=
  pcs_domain_size_from_piop_domain_size (piop_domain_size scalarBits n)

/-- Maximum ring size supported by a PIOP domain size (ring.rs
`dom_utils::max_ring_size_from_piop_domain_size`):
`piop_domain_size - piop_overhead`. -/
def max_ring_size_from_piop_domain_size (scalarBits d : Nat) : Nat :=
  d - piop_overhead scalarBits

/-- C7.  Ring sizing laws: `piop_domain_size(n)` is the smallest power of
two at least `n + (4 + scalar_bit_length)`; `pcs_domain_size` is
`3 * piop_domain_size + 1`; `max_ring_size` computed from the PIOP domain
size `d` equals `d - (4 + scalar_bit_length)` and is at least `n`, while
`piop_domain_size(max_ring_size + 1)` is strictly larger than
`piop_domain_size(n)`. -/
theorem C7_ring_sizing_laws (scalarBits n : Nat) :
    (∃ k, piop_domain_size scalarBits n = 2 ^ k) ∧
    n + (4 + scalarBits) ≤ piop_domain_size scalarBits n ∧
    (∀ m k, m = 2 ^ k → n + (4 + scalarBits) ≤ m → piop_domain_size scalarBits n ≤ m) ∧
    pcs_domain_size scalarBits n = 3 * piop_domain_size scalarBits n + 1 ∧
    max_ring_size_from_piop_domain_size scalarBits (piop_domain_size scalarBits n)
      = piop_domain_size scalarBits n - (4 + scalarBits) ∧
    n ≤ max_ring_size_from_piop_domain_size scalarBits (piop_domain_size scalarBits n) ∧
    piop_domain_size scalarBits n
      < piop_domain_size scalarBits
          (max_ring_size_from_piop_domain_size scalarBits (piop_domain_size scalarBits n)
            + 1) := by
  obtain ⟨hpow, hge, hmin⟩ := next_power_of_two_spec (n + piop_overhead scalarBits)
  have hge' : n + (4 + scalarBits) ≤ piop_domain_size scalarBits n := hge
  refine ⟨hpow, hge', ?_, rfl, rfl, ?_, ?_⟩
  · intro m k hm hnm
    exact hmin m k hm hnm
  · unfold max_ring_size_from_piop_domain_size piop_overhead
    omega
  · have harg : max_ring_size_from_piop_domain_size scalarBits (piop_domain_size scalarBits n)
        + 1 + piop_overhead scalarBits = piop_domain_size scalarBits n + 1 := by
      unfold max_ring_size_from_piop_domain_size piop_overhead
      unfold piop_overhead at hge'
      omega
    have hdef : piop_domain_size scalarBits
        (max_ring_size_from_piop_domain_size scalarBits (piop_domain_size scalarBits n) + 1)
        = next_power_of_two (piop_domain_size scalarBits n + 1) :=
      congrArg next_power_of_two harg
    have hlarge := (next_power_of_two_spec (piop_domain_size scalarBits n + 1)).2.1
    omega

/-! ## Ring proof parameters and key indexing (ring.rs)

The polynomial-commitment backend (`w3f_ring_proof`) is an external
collaborator; its `index` function, the TE-form mapping of public keys
(`TEMapping::to_te_slice`, declared in the missing `utils/te_sw_map`
module) and the partial ring commitment are abstract parameters here. -/

/-- PIOP parameters: the field read by the source (`keyset_part_size`)
plus an opaque remainder of the external backend state. -/
structure PiopParams (A : Type) where
  keyset_part_size : Nat
  rest : A

/-- Ring proof parameters (ring.rs `RingProofParams`): PCS parameters plus
PIOP parameters. -/
structure RingProofParams (Pc A : Type) where
  pcs : Pc
  piop : PiopParams A

/-- Maximum ring size (`RingProofParams::max_ring_size`):
`self.piop.keyset_part_size`. -/
def RingProofParams.max_ring_size {Pc A : Type} (p : RingProofParams Pc A) : Nat :=
  p.piop.keyset_part_size

/-- Prover key construction (`RingProofParams::prover_key`): the ring is
truncated to `pks[..pks.len().min(self.max_ring_size())]`, mapped to TE
form, and handed to the external indexer, whose first output component is
returned.  `indexFn` is the external `ring_proof::index`, `teMap` the
external TE-form mapping of a key. -/
def RingProofParams.prover_key {Pc A Pk Tpk K V : Type}
    (indexFn : Pc → PiopParams A → List Tpk → K × V) (teMap : Pk → Tpk)
    (p : RingProofParams Pc A) (pks : List Pk) : K :=
  (indexFn p.pcs p.piop ((pks.take (min pks.length p.max_ring_size)).map teMap)).1

/-- Verifier key construction (`RingProofParams::verifier_key`): same
truncation, second output component of the external indexer. -/
def RingProofParams.verifier_key {Pc A Pk Tpk K V : Type}
    (indexFn : Pc → PiopParams A → List Tpk → K × V) (teMap : Pk → Tpk)
    (p : RingProofParams Pc A) (pks : List Pk) : V :=
  (indexFn p.pcs p.piop ((pks.take (min pks.length p.max_ring_size)).map teMap)).2

/-- Modelled from the spec: the set of ring keys actually committed, in
the claim's words `pks[0 .. min(pks.len(), max_ring_size())]`. -/
def committed_keys {Pk : Type} (maxRingSize : Nat) (pks : List Pk) : List Pk :=
  pks.take (min pks.length maxRingSize)

/-- C10.  Silent ring truncation at the public interface: when more keys
than `max_ring_size()` are supplied, `prover_key` and `verifier_key`
succeed, index only the first `max_ring_size()` keys (the result is the
one obtained from the truncated ring), and the keys handed to the external
indexer are exactly `pks[0 .. min(pks.len(), max_ring_size())]` in TE
form. -/
theorem C10_ring_key_truncation {Pc A Pk Tpk K V : Type}
    (indexFn : Pc → PiopParams A → List Tpk → K × V) (teMap : Pk → Tpk)
    (p : RingProofParams Pc A) (pks : List Pk)
    (hlen : p.max_ring_size < pks.length) :
    p.prover_key indexFn teMap pks
        = p.prover_key indexFn teMap (pks.take p.max_ring_size) ∧
    p.verifier_key indexFn teMap pks
        = p.verifier_key indexFn teMap (pks.take p.max_ring_size) ∧
    p.prover_key indexFn teMap pks
        = (indexFn p.pcs p.piop ((committed_keys p.max_ring_size pks).map teMap)).1 ∧
    p.verifier_key indexFn teMap pks
        = (indexFn p.pcs p.piop ((committed_keys p.max_ring_size pks).map teMap)).2 := by
  have hmin : min pks.length p.max_ring_size = p.max_ring_size := by omega
  have htake : ∀ m : Nat, (pks.take p.max_ring_size).take m = pks.take (min m p.max_ring_size) := by
    intro m
    rw [List.take_take]
  have hlen2 : (pks.take p.max_ring_size).length = p.max_ring_size := by
    rw [List.length_take]
    omega
  have hmin2 : min (pks.take p.max_ring_size).length p.max_ring_size = p.max_ring_size := by
    rw [hlen2]; omega
  have hkeys : (pks.take p.max_ring_size).take
      (min (pks.take p.max_ring_size).length p.max_ring_size) = pks.take p.max_ring_size := by
    rw [hmin2, htake]
    simp
  have harg : pks.take (min pks.length p.max_ring_size) = pks.take p.max_ring_size := by
    rw [hmin]
  refine ⟨?_, ?_, ?_, ?_⟩
  · unfold RingProofParams.prover_key
    rw [harg, hkeys]
  · unfold RingProofParams.verifier_key
    rw [harg, hkeys]
  · unfold RingProofParams.prover_key committed_keys
    rfl
  · unfold RingProofParams.verifier_key committed_keys
    rfl

/-! ## Incremental verifier key builder (ring.rs `VerifierKeyBuilder`) -/

/-- Value of Rust `usize::MAX` on a 64-bit target. -/
def usize_MAX : Nat :=
  2 ^ 64 - 1

/-- Partial ring commitment of the external backend
(`w3f_ring_proof::ring::Ring`): the source reads its `max_keys` and
`curr_keys` fields; the remaining state is opaque. -/
structure PartialRingCommitment (R : Type) where
  max_keys : Nat
  curr_keys : Nat
  rest : R

/-- Verifier key builder (ring.rs `VerifierKeyBuilder`): partial ring
commitment (source field name `partial`) plus the raw verifier key. -/
structure VerifierKeyBuilder (R K : Type) where
  pring : PartialRingCommitment R
  raw_vk : K

/-- Number of remaining slots (`VerifierKeyBuilder::free_slots`):
`partial.max_keys - partial.curr_keys`. -/
def VerifierKeyBuilder.free_slots {R K : Type} (b : VerifierKeyBuilder R K) : Nat :=
  b.pring.max_keys - b.pring.curr_keys

/-- Key appending (`VerifierKeyBuilder::append`).  `lookup start stop`
models the SRS lookup over the range `start..stop`; `appendExt` is the
external `Ring::append` acting on the partial commitment; `teMap` the
external TE-form mapping.  The `&mut self` receiver and `Result<(),
usize>` are modelled by returning the updated builder paired with
`none` for `Ok(())` or `some e` for `Err(e)`. -/
def VerifierKeyBuilder.append {R K G Pk Tpk : Type}
    (appendExt : PartialRingCommitment R → List Tpk → List G → PartialRingCommitment R)
    (teMap : Pk → Tpk) (b : VerifierKeyBuilder R K) (pks : List Pk)
    (lookup : Nat → Nat → Option (List G)) : VerifierKeyBuilder R K × Option Nat :=
  let avail_slots := b.free_slots
  if avail_slots < pks.length then (b, some avail_slots)
  else
    match lookup b.pring.curr_keys (b.pring.curr_keys + pks.length) with
    | none => (b, some usize_MAX)
    | some segment =>
      ({ b with pring := appendExt b.pring (pks.map teMap) segment }, none)

/-- C8.  Verifier-key-builder append error contract and atomicity: if more
keys are supplied than `free_slots()`, `append` fails with exactly
`free_slots()`; otherwise, if the SRS lookup cannot supply the required
segment, it fails with `usize::MAX`; and in every error case the builder
state is unchanged (hence `free_slots()` too). -/
theorem C8_builder_append_contract {R K G Pk Tpk : Type}
    (appendExt : PartialRingCommitment R → List Tpk → List G → PartialRingCommitment R)
    (teMap : Pk → Tpk) (b : VerifierKeyBuilder R K) (pks : List Pk)
    (lookup : Nat → Nat → Option (List G)) :
    (b.free_slots < pks.length →
      b.append appendExt teMap pks lookup = (b, some b.free_slots)) ∧
    (pks.length ≤ b.free_slots →
      lookup b.pring.curr_keys (b.pring.curr_keys + pks.length) = none →
      b.append appendExt teMap pks lookup = (b, some usize_MAX)) ∧
    (∀ (b' : VerifierKeyBuilder R K) (e : Nat),
      b.append appendExt teMap pks lookup = (b', some e) → b' = b) := by
  refine ⟨?_, ?_, ?_⟩
  · intro h
    simp [VerifierKeyBuilder.append, h]
  · intro h hlk
    simp [VerifierKeyBuilder.append, Nat.not_lt.mpr h, hlk]
  · intro b' e heq
    simp only [VerifierKeyBuilder.append] at heq
    by_cases h1 : b.free_slots < pks.length
    · rw [if_pos h1] at heq
      exact (congrArg Prod.fst heq).symm
    · rw [if_neg h1] at heq
      cases hlk : lookup b.pring.curr_keys (b.pring.curr_keys + pks.length) with
      | none =>
        rw [hlk] at heq
        exact (congrArg Prod.fst heq).symm
      | some segment =>
        rw [hlk] at heq
        exact absurd (congrArg Prod.snd heq) (by simp)

/-! ## Try-and-increment hash-to-curve (utils.rs `hash_to_curve_tai`)

The decoding of a candidate byte string
(`AffinePoint::deserialize_compressed_unchecked`) and cofactor clearing
are supplied by the external algebraic collaborator and appear as opaque
functions of the suite. -/

/-- The suite data used by `hash_to_curve_tai`: identifier, hash, base
field byte length (`MODULUS_BIT_SIZE / 8`), lenient point decoding and
cofactor clearing. -/
structure TaiSuite (Pt : Type) where
  suiteId : List Nat
  hash : List Nat → List Nat
  mod_size : Nat
  decodePoint : List Nat → Option Pt
  clearCofactor : Pt → Pt

/-- The mutable hash-input buffer of `hash_to_curve_tai` before the
counter is written: `[suite_id, 0x01] || data || [0x00, 0x00]`. -/
def tai_buf (suiteId data : List Nat) : List Nat :=
  suiteId ++ [0x01] ++ data ++ [0x00, 0x00]

/-- The hash input of attempt `ctr`: the byte at `ctr_pos = buf.len() - 2`
is overwritten with the counter. -/
def tai_attempt_msg (suiteId data : List Nat) (ctr : Nat) : List Nat :=
  let buf := tai_buf suiteId data
  buf.set (buf.length - 2) ctr

theorem set_append_pair (pre : List Nat) (a b c : Nat) :
    (pre ++ [a, b]).set pre.length c = pre ++ [c, b] := by
  induction pre with
  | nil => rfl
  | cons x xs ih =>
    simp only [List.cons_append, List.length_cons, List.set_cons_succ, ih]

theorem tai_attempt_msg_eq (suiteId data : List Nat) (ctr : Nat) :
    tai_attempt_msg suiteId data ctr = suiteId ++ [0x01] ++ data ++ [ctr, 0x00] := by
  have h1 : tai_buf suiteId data = (suiteId ++ [0x01] ++ data) ++ [0x00, 0x00] := by
    unfold tai_buf
    simp
  have h2 : (tai_buf suiteId data).length - 2 = (suiteId ++ [0x01] ++ data).length := by
    rw [h1]
    simp
    omega
  show (tai_buf suiteId data).set ((tai_buf suiteId data).length - 2) ctr
      = suiteId ++ [0x01] ++ data ++ [ctr, 0x00]
  rw [h2, h1, set_append_pair]

variable {Pt : Type} [Zero Pt] [DecidableEq Pt]

/-- The `for ctr in 0..256` loop body of `hash_to_curve_tai`, recursing
over the remaining counter values: hash the attempt message, give up with
`None` if the digest is shorter than the field byte length, otherwise try
to decode the reversed digest with a trailing `0x00`, clear the cofactor
and return the point unless it is the identity. -/
def hash_to_curve_tai_loop (T : TaiSuite Pt) (data : List Nat) :
    List Nat → Option Pt
  | [] => none
  | ctr :: rest =>
    let hash := T.hash (tai_attempt_msg T.suiteId data ctr)
    if hash.length < T.mod_size then none
    else
      match T.decodePoint (hash.reverse ++ [0x00]) with
      | some pt0 =>
        let pt := T.clearCofactor pt0
        if pt = 0 then hash_to_curve_tai_loop T data rest else some pt
      | none => hash_to_curve_tai_loop T data rest

/-- Try-And-Increment hash-to-curve (utils.rs `hash_to_curve_tai`):
the counter ranges over `0..256`. -/
def hash_to_curve_tai (T : TaiSuite Pt) (data : List Nat) : Option Pt :=
  hash_to_curve_tai_loop T data (List.range 256)

/-- An attempt counter value yields a valid point: the digest is long
enough, the candidate byte string decodes, and the cofactor-cleared point
is not the identity. -/
def tai_attempt_success (T : TaiSuite Pt) (data : List Nat) (ctr : Nat) : Prop :=
  T.mod_size ≤ (T.hash (tai_attempt_msg T.suiteId data ctr)).length ∧
  ∃ pt0, T.decodePoint ((T.hash (tai_attempt_msg T.suiteId data ctr)).reverse ++ [0x00])
      = some pt0 ∧ T.clearCofactor pt0 ≠ 0

instance (T : TaiSuite Pt) [Fintype Pt] (data : List Nat) (ctr : Nat) :
    Decidable (tai_attempt_success T data ctr) :=
  inferInstanceAs (Decidable
    (T.mod_size ≤ (T.hash (tai_attempt_msg T.suiteId data ctr)).length ∧
     ∃ pt0, T.decodePoint ((T.hash (tai_attempt_msg T.suiteId data ctr)).reverse ++ [0x00])
        = some pt0 ∧ T.clearCofactor pt0 ≠ 0))

theorem tai_loop_none (T : TaiSuite Pt) (data : List Nat) :
    ∀ ctrs : List Nat, (∀ c ∈ ctrs, ¬ tai_attempt_success T data c) →
      hash_to_curve_tai_loop T data ctrs = none := by
  intro ctrs
  induction ctrs with
  | nil => intro _; rfl
  | cons c rest ih =>
    intro h
    have hc := h c (by simp)
    simp only [hash_to_curve_tai_loop]
    split_ifs with hshort
    · rfl
    · cases hdec : T.decodePoint ((T.hash (tai_attempt_msg T.suiteId data c)).reverse
          ++ [0x00]) with
      | none => exact ih (fun c' hc' => h c' (by simp [hc']))
      | some pt0 =>
        show (if T.clearCofactor pt0 = 0 then hash_to_curve_tai_loop T data rest
            else some (T.clearCofactor pt0)) = none
        split_ifs with hzero
        · exact ih (fun c' hc' => h c' (by simp [hc']))
        · exact absurd ⟨Nat.not_lt.mp hshort, pt0, hdec, hzero⟩ hc

theorem tai_loop_some (T : TaiSuite Pt) (data : List Nat) :
    ∀ (ctrs : List Nat) (pt : Pt), hash_to_curve_tai_loop T data ctrs = some pt →
      pt ≠ 0 ∧ ∃ ctr ∈ ctrs, ∃ pt0,
        T.decodePoint ((T.hash (tai_attempt_msg T.suiteId data ctr)).reverse ++ [0x00])
            = some pt0 ∧
        pt = T.clearCofactor pt0 := by
  intro ctrs
  induction ctrs with
  | nil => intro pt h; exact absurd h (by simp [hash_to_curve_tai_loop])
  | cons c rest ih =>
    intro pt h
    simp only [hash_to_curve_tai_loop] at h
    split_ifs at h with hshort
    cases hdec : T.decodePoint ((T.hash (tai_attempt_msg T.suiteId data c)).reverse
        ++ [0x00]) with
    | none =>
      rw [hdec] at h
      obtain ⟨hnz, ctr, hmem, pt0, hdec0, hpt⟩ := ih pt h
      exact ⟨hnz, ctr, by simp [hmem], pt0, hdec0, hpt⟩
    | some pt0 =>
      rw [hdec] at h
      replace h : (if T.clearCofactor pt0 = 0 then hash_to_curve_tai_loop T data rest
          else some (T.clearCofactor pt0)) = some pt := h
      split_ifs at h with hzero
      · obtain ⟨hnz, ctr, hmem, pt0', hdec0, hpt⟩ := ih pt h
        exact ⟨hnz, ctr, by simp [hmem], pt0', hdec0, hpt⟩
      · exact ⟨Option.some.inj h ▸ hzero, c, by simp, pt0, hdec, (Option.some.inj h).symm⟩

/-- C9 (amended).  Bounded try-and-increment hash-to-curve: at most 256
attempts are made, hashing `suite_id || 0x01 || data || ctr || 0x00` (the
counter overwrites the second-to-last buffer byte) for `ctr = 0..255`;
when no attempt yields a valid point the function returns `None`; and any
point it does return is the cofactor-cleared decode result of some attempt
and is never the group identity. -/
theorem C9_hash_to_curve_tai_bounded (T : TaiSuite Pt) (data : List Nat) :
    (∀ ctr, tai_attempt_msg T.suiteId data ctr
        = T.suiteId ++ [0x01] ++ data ++ [ctr, 0x00]) ∧
    ((∀ ctr < 256, ¬ tai_attempt_success T data ctr) →
      hash_to_curve_tai T data = none) ∧
    (∀ pt, hash_to_curve_tai T data = some pt →
      pt ≠ 0 ∧ ∃ ctr < 256, ∃ pt0,
        T.decodePoint ((T.hash (tai_attempt_msg T.suiteId data ctr)).reverse ++ [0x00])
            = some pt0 ∧
        pt = T.clearCofactor pt0) := by
  refine ⟨fun ctr => tai_attempt_msg_eq T.suiteId data ctr, ?_, ?_⟩
  · intro h
    exact tai_loop_none T data (List.range 256)
      (fun c hc => h c (List.mem_range.mp hc))
  · intro pt h
    obtain ⟨hnz, ctr, hmem, pt0, hdec, hpt⟩ := tai_loop_some T data (List.range 256) pt h
    exact ⟨hnz, ctr, List.mem_range.mp hmem, pt0, hdec, hpt⟩

/-- Modelled from the spec: the per-attempt hash input layout claimed by
the specification for try-and-increment, namely
`suite_id || 0x01 || data || 0x00 || ctr || 0x00`. -/
def spec_tai_msg (suiteId data : List Nat) (ctr : Nat) : List Nat :=
  suiteId ++ [0x01] ++ data ++ [0x00] ++ [ctr] ++ [0x00]

/-- C9 counterexample: with the one-byte suite id `0xFF` and empty input
data, the message hashed by attempt 5 of `hash_to_curve_tai` is
`FF 01 05 00` — the counter replaces the placeholder byte — whereas the
layout claimed by the spec is `FF 01 00 05 00`, with an extra `0x00`
between the data and the counter. -/
theorem C9_tai_layout_counterexample :
    tai_attempt_msg [0xFF] [] 5 = [0xFF, 0x01, 5, 0x00] ∧
    spec_tai_msg [0xFF] [] 5 = [0xFF, 0x01, 0x00, 5, 0x00] ∧
    tai_attempt_msg [0xFF] [] 5 ≠ spec_tai_msg [0xFF] [] 5 := by
  refine ⟨by decide, by decide, by decide⟩

/-! ## Codecs (codec.rs)

The canonical (de)serialization of field elements, the compressed
arkworks point format and the short-Weierstrass helpers
(`get_ys_from_x_unchecked`, the TE↔SW mapping of `te_sw_map`) belong to
the external algebraic collaborator.  Field elements are modelled
concretely as `ZMod p` with canonical little-endian value bytes; the
point-level helpers are abstract parameters constrained by the
collaborator contract. -/

/-- Canonical arkworks serialization of a base-field element
(`serialize_compressed`): fixed-width little-endian bytes of the
canonical value (external collaborator). -/
def fieldToLeBytes (p nlen : Nat) (x : ZMod p) : List Nat :=
  natToLeBytes nlen x.val

/-- Canonical arkworks deserialization of a field element
(`deserialize_compressed`) from an exact-length buffer: fails on wrong
length or a non-canonical (≥ p) value (external collaborator; every call
site in the codec passes a buffer of exactly the field byte length). -/
def fieldFromLeBytes (p nlen : Nat) (buf : List Nat) : Except Error (ZMod p) :=
  if buf.length = nlen ∧ natFromLeBytes buf < p then .ok ((natFromLeBytes buf : Nat) : ZMod p)
  else .error .InvalidData

/-- ArkworksCodec `scalar_encode_into`: arkworks compressed serialization
of the scalar, i.e. canonical little-endian bytes
(`SCALAR_ENCODED_LEN = qLen` bytes). -/
def ark_scalar_encode (q qLen : Nat) (sc : ZMod q) : List Nat :=
  natToLeBytes qLen sc.val

/-- ArkworksCodec `scalar_decode`: `from_le_bytes_mod_order`. -/
def ark_scalar_decode (q : Nat) (buf : List Nat) : ZMod q :=
  ((natFromLeBytes buf : Nat) : ZMod q)

/-- Sec1Codec `scalar_encode_into`: arkworks bytes reversed (big-endian). -/
def sec1_scalar_encode (q qLen : Nat) (sc : ZMod q) : List Nat :=
  (natToLeBytes qLen sc.val).reverse

/-- Sec1Codec `scalar_decode`: `from_be_bytes_mod_order`. -/
def sec1_scalar_decode (q : Nat) (buf : List Nat) : ZMod q :=
  ((natFromBeBytes buf : Nat) : ZMod q)

/-- ArkworksCodec `point_encode_into`: delegates to arkworks compressed
point serialization (external collaborator, abstract `ser`). -/
def ark_point_encode {NP : Type} (ser : NP → List Nat) (pt : NP) : List Nat :=
  ser pt

/-- ArkworksCodec `point_decode`: delegates to
`deserialize_compressed_unchecked` (external collaborator, abstract
`deser`). -/
def ark_point_decode {NP : Type} (deser : List Nat → Except Error NP) (buf : List Nat) :
    Except Error NP :=
  deser buf

/-- Sec1Codec `POINT_ENCODED_LEN`: one flag byte plus the base-field
byte length. -/
def sec1_point_encoded_len (nlen : Nat) : Nat :=
  1 + nlen

/-- Sec1Codec `point_encode_into`: the identity is the single byte 0x00;
otherwise the point is mapped to short-Weierstrass form, a parity flag
byte (0x03 for odd y, 0x02 for even y) is emitted, followed by the
big-endian (reversed arkworks) bytes of the x coordinate.  `intoSw` is
the external `SWMapping::into_sw`. -/
def sec1_point_encode {NP : Type} [Zero NP] [DecidableEq NP] (p nlen : Nat)
    (intoSw : NP → ZMod p × ZMod p) (pt : NP) : List Nat :=
  if pt = 0 then [0x00]
  else
    let sw := intoSw pt
    let flag : Nat := if sw.2.val % 2 = 1 then 0x03 else 0x02
    flag :: (fieldToLeBytes p nlen sw.1).reverse

/-- Shared tail of Sec1Codec `point_decode` after the flag byte has been
determined: deserialize x, recover the two y candidates
(`get_ys_from_x_unchecked`, external `getYs`), pick the one whose parity
matches the flag, and map back from short-Weierstrass form (external
`fromSw`). -/
def sec1_decode_body {NP : Type} (p nlen : Nat)
    (getYs : ZMod p → Option (ZMod p × ZMod p)) (fromSw : ZMod p × ZMod p → NP)
    (y_flag : Nat) (b : List Nat) : Except Error NP :=
  match fieldFromLeBytes p nlen b with
  | .error e => .error e
  | .ok x =>
    match getYs x with
    | none => .error .InvalidData
    | some ys =>
      let y := if (y_flag % 2 = 1) ↔ (ys.1.val % 2 = 1) then ys.1 else ys.2
      .ok (fromSw (x, y))

/-- Sec1Codec `point_decode`: the single byte 0x00 is the identity;
otherwise the buffer is reversed, and if it is one byte short of
`POINT_ENCODED_LEN` the flag is taken to be 0x02 (the lenient
flag-omitted path), else the flag byte is popped off.  The empty-buffer
case, where the source's `pop().unwrap()` would panic and which is
unreachable from any codec-produced encoding, is mapped to `InvalidData`. -/
def sec1_point_decode {NP : Type} [Zero NP] [DecidableEq NP] (p nlen : Nat)
    (getYs : ZMod p → Option (ZMod p × ZMod p)) (fromSw : ZMod p × ZMod p → NP)
    (buf : List Nat) : Except Error NP :=
  if buf = [0x00] then .ok 0
  else
    let b := buf.reverse
    if b.length + 1 = sec1_point_encoded_len nlen then
      sec1_decode_body p nlen getYs fromSw 0x02 b
    else
      match b.getLast? with
      | none => .error .InvalidData
      | some y_flag => sec1_decode_body p nlen getYs fromSw y_flag b.dropLast

theorem ark_scalar_roundtrip (q qLen : Nat) [NeZero q] (hq : q ≤ 256 ^ qLen)
    (sc : ZMod q) :
    ark_scalar_decode q (ark_scalar_encode q qLen sc) = sc ∧
    (ark_scalar_encode q qLen sc).length = qLen := by
  constructor
  · unfold ark_scalar_decode ark_scalar_encode
    rw [natFromLeBytes_natToLeBytes qLen sc.val (lt_of_lt_of_le (ZMod.val_lt sc) hq)]
    exact ZMod.natCast_rightInverse sc
  · exact natToLeBytes_length qLen sc.val

theorem sec1_scalar_roundtrip (q qLen : Nat) [NeZero q] (hq : q ≤ 256 ^ qLen)
    (sc : ZMod q) :
    sec1_scalar_decode q (sec1_scalar_encode q qLen sc) = sc ∧
    (sec1_scalar_encode q qLen sc).length = qLen := by
  constructor
  · unfold sec1_scalar_decode sec1_scalar_encode natFromBeBytes
    rw [List.reverse_reverse,
      natFromLeBytes_natToLeBytes qLen sc.val (lt_of_lt_of_le (ZMod.val_lt sc) hq)]
    exact ZMod.natCast_rightInverse sc
  · unfold sec1_scalar_encode
    rw [List.length_reverse]
    exact natToLeBytes_length qLen sc.val

theorem neg_val_parity (p : Nat) [NeZero p] (hp2 : p % 2 = 1) (y : ZMod p) (hy : y ≠ 0) :
    ((-y).val % 2 = 1) ↔ ¬ (y.val % 2 = 1) := by
  rw [ZMod.neg_val]
  simp only [hy, if_false]
  have h1 : y.val ≠ 0 := fun h => hy ((ZMod.val_eq_zero y).mp h)
  have h2 : y.val < p := ZMod.val_lt y
  omega

theorem sec1_decode_body_eq {NP : Type} (p nlen : Nat)
    (getYs : ZMod p → Option (ZMod p × ZMod p)) (fromSw : ZMod p × ZMod p → NP)
    (y_flag : Nat) (b : List Nat) (x : ZMod p)
    (hf : fieldFromLeBytes p nlen b = .ok x)
    (y1 y2 : ZMod p) (hys : getYs x = some (y1, y2)) :
    sec1_decode_body p nlen getYs fromSw y_flag b
      = .ok (fromSw (x, if (y_flag % 2 = 1) ↔ (y1.val % 2 = 1) then y1 else y2)) := by
  unfold sec1_decode_body
  rw [hf]
  show (match getYs x with
      | none => Except.error Error.InvalidData
      | some ys =>
        Except.ok (fromSw (x, if (y_flag % 2 = 1) ↔ (ys.1.val % 2 = 1) then ys.1 else ys.2)))
      = Except.ok (fromSw (x, if (y_flag % 2 = 1) ↔ (y1.val % 2 = 1) then y1 else y2))
  rw [hys]

theorem sec1_point_roundtrip_nonzero {NP : Type} [Zero NP] [DecidableEq NP]
    (p nlen : Nat) [NeZero p]
    (intoSw : NP → ZMod p × ZMod p) (fromSw : ZMod p × ZMod p → NP)
    (getYs : ZMod p → Option (ZMod p × ZMod p))
    (hp2 : p % 2 = 1) (hplen : p ≤ 256 ^ nlen)
    (pt : NP) (hnz : pt ≠ 0)
    (hsw : fromSw (intoSw pt) = pt)
    (y1 y2 : ZMod p)
    (hys : getYs (intoSw pt).1 = some (y1, y2))
    (hpair : (y1 = (intoSw pt).2 ∧ y2 = -(intoSw pt).2) ∨
             (y1 = -(intoSw pt).2 ∧ y2 = (intoSw pt).2)) :
    sec1_point_decode p nlen getYs fromSw (sec1_point_encode p nlen intoSw pt)
      = .ok pt := by
  set x := (intoSw pt).1 with hx
  set y := (intoSw pt).2 with hy
  set bytes := natToLeBytes nlen x.val with hbytes
  set flag : Nat := if y.val % 2 = 1 then 0x03 else 0x02 with hflagdef
  have henc : sec1_point_encode p nlen intoSw pt = flag :: bytes.reverse := by
    unfold sec1_point_encode fieldToLeBytes
    rw [if_neg hnz]
  have hflag_ne : flag ≠ 0 := by
    rw [hflagdef]
    split_ifs <;> omega
  have hflag_parity : (flag % 2 = 1) ↔ (y.val % 2 = 1) := by
    rw [hflagdef]
    split_ifs with h <;> simp [h]
  have hblen : bytes.length = nlen := natToLeBytes_length nlen x.val
  have hfield : fieldFromLeBytes p nlen bytes = .ok x := by
    unfold fieldFromLeBytes
    have hval : natFromLeBytes bytes = x.val :=
      natFromLeBytes_natToLeBytes nlen x.val (lt_of_lt_of_le (ZMod.val_lt x) hplen)
    rw [if_pos ⟨hblen, by rw [hval]; exact ZMod.val_lt x⟩, hval]
    rw [ZMod.natCast_rightInverse x]
  rw [henc]
  unfold sec1_point_decode
  rw [if_neg (by
    intro habs
    injection habs with hh _
    exact hflag_ne hh)]
  have hrev : (flag :: bytes.reverse).reverse = bytes ++ [flag] := by
    rw [List.reverse_cons, List.reverse_reverse]
  rw [hrev]
  have hlen_ne : ¬ ((bytes ++ [flag]).length + 1 = sec1_point_encoded_len nlen) := by
    rw [List.length_append, hblen]
    unfold sec1_point_encoded_len
    simp only [List.length_cons, List.length_nil]
    omega
  rw [if_neg hlen_ne]
  rw [List.getLast?_concat, List.dropLast_concat]
  show sec1_decode_body p nlen getYs fromSw flag bytes = Except.ok pt
  have hchoose : (if (flag % 2 = 1) ↔ (y1.val % 2 = 1) then y1 else y2) = y := by
    rcases hpair with ⟨h1, h2⟩ | ⟨h1, h2⟩
    · rw [if_pos (by rw [h1]; exact hflag_parity)]
      exact h1
    · by_cases hyy : -y = y
      · have hy1 : y1 = y := by rw [h1, hyy]
        rw [hy1, h2]
        split_ifs
        all_goals rfl
      · have hy0 : y ≠ 0 := fun h0 => hyy (by rw [h0, neg_zero])
        have hcond : ¬ ((flag % 2 = 1) ↔ (y1.val % 2 = 1)) := by
          rw [h1, hflag_parity, neg_val_parity p hp2 y hy0]
          tauto
        rw [if_neg hcond]
        exact h2
  calc sec1_decode_body p nlen getYs fromSw flag bytes
      = .ok (fromSw (x, if (flag % 2 = 1) ↔ (y1.val % 2 = 1) then y1 else y2)) :=
        sec1_decode_body_eq p nlen getYs fromSw flag bytes x hfield y1 y2 hys
    _ = .ok pt := by
        rw [hchoose, hx, hy, Prod.mk.eta, hsw]

theorem sec1_point_encode_length_nonzero {NP : Type} [Zero NP] [DecidableEq NP]
    (p nlen : Nat) (intoSw : NP → ZMod p × ZMod p) (pt : NP) (hnz : pt ≠ 0) :
    (sec1_point_encode p nlen intoSw pt).length = sec1_point_encoded_len nlen := by
  unfold sec1_point_encode fieldToLeBytes sec1_point_encoded_len
  rw [if_neg hnz]
  simp only [List.length_cons, List.length_reverse, natToLeBytes_length]
  omega

/-- C5 (amended).  Codec round-trip and fixed encoded length: for both
codecs, `point_decode(point_encode(p)) = p` for every valid curve point
(including the identity) and `scalar_decode(scalar_encode(x)) = x` for
every scalar; the encodings have the advertised lengths
(`SCALAR_ENCODED_LEN`, the arkworks point length, and Sec1's
`POINT_ENCODED_LEN` for non-identity points) — except that Sec1Codec
encodes the identity point as the single byte 0x00, of length 1 rather
than `POINT_ENCODED_LEN`.  The arkworks field/point serialization, the
SW mapping and `get_ys_from_x_unchecked` are external-collaborator
parameters constrained by the stated contract hypotheses. -/
theorem C5_codec_roundtrip {NP : Type} [Zero NP] [DecidableEq NP]
    (p nlen q qLen arkLen : Nat) [NeZero p] [NeZero q]
    (valid : NP → Bool)
    (intoSw : NP → ZMod p × ZMod p) (fromSw : ZMod p × ZMod p → NP)
    (getYs : ZMod p → Option (ZMod p × ZMod p))
    (arkSer : NP → List Nat) (arkDeser : List Nat → Except Error NP)
    (hp2 : p % 2 = 1) (hplen : p ≤ 256 ^ nlen) (hqlen : q ≤ 256 ^ qLen)
    (hark_len : ∀ pt, valid pt = true → (arkSer pt).length = arkLen)
    (hark_rt : ∀ pt, valid pt = true → arkDeser (arkSer pt) = .ok pt)
    (hsw : ∀ pt, valid pt = true → pt ≠ 0 → fromSw (intoSw pt) = pt)
    (hgetYs : ∀ pt, valid pt = true → pt ≠ 0 →
      ∃ y1 y2, getYs (intoSw pt).1 = some (y1, y2) ∧
        ((y1 = (intoSw pt).2 ∧ y2 = -(intoSw pt).2) ∨
         (y1 = -(intoSw pt).2 ∧ y2 = (intoSw pt).2))) :
    (∀ sc : ZMod q, ark_scalar_decode q (ark_scalar_encode q qLen sc) = sc ∧
      (ark_scalar_encode q qLen sc).length = qLen) ∧
    (∀ sc : ZMod q, sec1_scalar_decode q (sec1_scalar_encode q qLen sc) = sc ∧
      (sec1_scalar_encode q qLen sc).length = qLen) ∧
    (∀ pt, valid pt = true →
      ark_point_decode arkDeser (ark_point_encode arkSer pt) = .ok pt ∧
      (ark_point_encode arkSer pt).length = arkLen) ∧
    (∀ pt, valid pt = true →
      sec1_point_decode p nlen getYs fromSw (sec1_point_encode p nlen intoSw pt)
        = .ok pt) ∧
    (∀ pt, valid pt = true → pt ≠ 0 →
      (sec1_point_encode p nlen intoSw pt).length = sec1_point_encoded_len nlen) ∧
    sec1_point_encode p nlen intoSw (0 : NP) = [0x00] := by
  refine ⟨fun sc => ark_scalar_roundtrip q qLen hqlen sc,
    fun sc => sec1_scalar_roundtrip q qLen hqlen sc, ?_, ?_, ?_, ?_⟩
  · intro pt hv
    exact ⟨hark_rt pt hv, hark_len pt hv⟩
  · intro pt hv
    by_cases hnz : pt = 0
    · subst hnz
      have henc : sec1_point_encode p nlen intoSw (0 : NP) = [0x00] := by
        unfold sec1_point_encode
        rw [if_pos rfl]
      rw [henc]
      unfold sec1_point_decode
      rw [if_pos rfl]
    · obtain ⟨y1, y2, hys, hpair⟩ := hgetYs pt hv hnz
      exact sec1_point_roundtrip_nonzero p nlen intoSw fromSw getYs hp2 hplen pt hnz
        (hsw pt hv hnz) y1 y2 hys hpair
  · intro pt _ hnz
    exact sec1_point_encode_length_nonzero p nlen intoSw pt hnz
  · unfold sec1_point_encode
    rw [if_pos rfl]

/-! ### Concrete instantiation for the codec claims: the short-Weierstrass
curve y² = x³ + 1 over ZMod 5, points as `Option (x, y)` with `none` the
point at infinity. -/

/-- Concrete witness point type: affine short-Weierstrass point over
ZMod 5, `none` being the point at infinity. -/
def W5Point : Type :=
  Option (ZMod 5 × ZMod 5)

instance : Zero W5Point :=
  ⟨none⟩

instance : DecidableEq W5Point :=
  inferInstanceAs (DecidableEq (Option (ZMod 5 × ZMod 5)))

instance : Fintype W5Point :=
  inferInstanceAs (Fintype (Option (ZMod 5 × ZMod 5)))

/-- On-curve test for the witness curve y² = x³ + 1 over ZMod 5. -/
def w5valid : W5Point → Bool
  | none => true
  | some (x, y) => decide (y * y = x * x * x + 1)

/-- Identity SW mapping for the witness curve (its native form is already
short-Weierstrass; the infinity case is never consulted by the codec). -/
def w5intoSw : W5Point → ZMod 5 × ZMod 5
  | none => (0, 0)
  | some xy => xy

/-- Inverse SW mapping for the witness curve. -/
def w5fromSw (xy : ZMod 5 × ZMod 5) : W5Point :=
  some xy

/-- Concrete `get_ys_from_x_unchecked` for the witness curve: search for a
square root of x³ + 1 and return it paired with its negation. -/
def w5getYs (x : ZMod 5) : Option (ZMod 5 × ZMod 5) :=
  match (List.range 5).find? (fun yv => decide (((yv : ZMod 5)) * yv = x * x * x + 1)) with
  | none => none
  | some yv => some ((yv : ZMod 5), -(yv : ZMod 5))

/-- Concrete arkworks point serialization for the witness curve: one byte,
25 for infinity, else 5x + y. -/
def w5arkSer : W5Point → List Nat
  | none => [25]
  | some (x, y) => [x.val * 5 + y.val]

/-- Concrete arkworks point deserialization for the witness curve. -/
def w5arkDeser : List Nat → Except Error W5Point
  | [b] =>
    if b = 25 then .ok none
    else if b < 25 then .ok (some (((b / 5 : Nat) : ZMod 5), ((b % 5 : Nat) : ZMod 5)))
    else .error .InvalidData
  | _ => .error .InvalidData

/-- C5 counterexample: on the witness curve with the Sec1 codec
(`nlen = 1`, so `POINT_ENCODED_LEN = 2`), `point_encode` of the identity
point produces the single byte 0x00, of length 1 ≠ `POINT_ENCODED_LEN`,
refuting the claim that the encoded length always equals the advertised
constant, including for the identity. -/
theorem C5_identity_length_counterexample :
    sec1_point_encode 5 1 w5intoSw (0 : W5Point) = [0x00] ∧
    (sec1_point_encode 5 1 w5intoSw (0 : W5Point)).length = 1 ∧
    sec1_point_encoded_len 1 = 2 ∧
    (sec1_point_encode 5 1 w5intoSw (0 : W5Point)).length ≠ sec1_point_encoded_len 1 := by
  refine ⟨by decide, by decide, by decide, by decide⟩

/-! ## IETF proof wire format (ietf.rs serialization impls) -/

/-- CanonicalSerialize for `ietf::Proof` (ietf.rs): encode `c` with the
codec scalar encoding, fail with `NotEnoughSpace` (mapped to
`InvalidData` by the `From<SerializationError>` impl of lib.rs) if it is
shorter than `CHALLENGE_LEN`, write its first `CHALLENGE_LEN` bytes, then
append the arkworks compressed serialization of `s`. -/
def ietf_proof_serialize (q qLen clen : Nat) (codecScalarEncode : ZMod q → List Nat)
    (proof : IetfProof (ZMod q)) : Except Error (List Nat) :=
  let buf := codecScalarEncode proof.c
  if buf.length < clen then .error .InvalidData
  else .ok (buf.take clen ++ natToLeBytes qLen proof.s.val)

/-- CanonicalDeserialize for `ietf::Proof` (ietf.rs): read a FULL
arkworks field element for `c` (the reader consumes the full scalar byte
length, not `CHALLENGE_LEN`), then a full field element for `s`; fail
with `InvalidData` when the reader runs out of bytes or a value is not
canonical. -/
def ietf_proof_deserialize (q qLen : Nat) (buf : List Nat) :
    Except Error (IetfProof (ZMod q)) :=
  if qLen ≤ buf.length then
    match fieldFromLeBytes q qLen (buf.take qLen) with
    | .error e => .error e
    | .ok c =>
      let rest := buf.drop qLen
      if qLen ≤ rest.length then
        match fieldFromLeBytes q qLen (rest.take qLen) with
        | .error e => .error e
        | .ok s => .ok { c := c, s := s }
      else .error .InvalidData
  else .error .InvalidData

/-- C4 (code bug).  The IETF proof wire format does not round-trip:
serialization writes exactly `CHALLENGE_LEN` bytes for `c` followed by
the full scalar serialization of `s`, but deserialization reads a FULL
scalar for `c`, so whenever `CHALLENGE_LEN` is smaller than the scalar
byte length the reader consumes part of `s` as `c`.  Concretely, with
2-byte scalars (modulus 257), `CHALLENGE_LEN = 1` and the arkworks
codec, the proof `(c, s) = (1, 2)` serializes to `[1, 2, 0]`, whose
deserialization reads `[1, 2]` (value 513 ≥ 257) as `c` and fails with
`InvalidData` instead of returning the original proof. -/
theorem C4_wire_roundtrip_fails :
    ietf_proof_serialize 257 2 1 (ark_scalar_encode 257 2)
      { c := 1, s := 2 } = .ok [1, 2, 0] ∧
    ietf_proof_deserialize 257 2 [1, 2, 0] = .error .InvalidData := by
  refine ⟨by decide, by decide⟩

/-! ## Concrete witness suite over ZMod 5 -/

/-- Concrete witness suite: scalars and points are both ZMod 5, with the
generator 1, blinding base 2 and simple executable stand-ins for the
hash-derived functions. -/
def wSuite : Suite (ZMod 5) (ZMod 5) where
  suiteId := [0xFF]
  challengeLen := 16
  nonce := fun sk pt => sk + sk + pt
  challenge := fun pts ad => pts.sum + ((ad.foldl (fun a b => a + b) 0 : Nat) : ZMod 5)
  generator := 1
  blindingBase := 2
  hasher := fun l => (List.range 64).map (fun i => (l.length + l.sum + i) % 256)
  pointEncode := fun pt => [pt.val]
  scalarEncode := fun x => [x.val]
  scalarFromLe := fun l => ((natFromLeBytes l : Nat) : ZMod 5)
  scalarFromBe := fun l => ((natFromBeBytes l : Nat) : ZMod 5)
  prg := fun seed i => [(seed.sum + i) % 256]

/-- C3 witness: a singleton batch prepared from a tuple passing single
verification is accepted by each batch verifier, and the empty batches
are accepted. -/
theorem C3_batch_verify_completeness_witness :
    ietf_bc_batch_verify wSuite
        [ietf_bc_prepare wSuite (Secret.fromScalar wSuite 2).public 3
          ((Secret.fromScalar wSuite 2).output 3 0) [7]
          (ietf_bc_prove wSuite (Secret.fromScalar wSuite 2) 3
            ((Secret.fromScalar wSuite 2).output 3 0) [7] (fun _ => 1))] = .ok () ∧
    thin_batch_verify wSuite
        [thin_prepare wSuite (Secret.fromScalar wSuite 2).public 3
          ((Secret.fromScalar wSuite 2).output 3 0) [7]
          (thin_prove wSuite (Secret.fromScalar wSuite 2) 3
            ((Secret.fromScalar wSuite 2).output 3 0) [7] (fun _ => 1))] = .ok () ∧
    ietf_bc_batch_verify wSuite ([] : List (BcBatchItem (ZMod 5) (ZMod 5))) = .ok () ∧
    thin_batch_verify wSuite ([] : List (ThinBatchItem (ZMod 5) (ZMod 5))) = .ok () :=
  C3_batch_verify_completeness wSuite _ _
    (fun it hit => by
      rw [List.mem_singleton] at hit
      exact ⟨_, _, _, _, _, hit, by decide⟩)
    (fun it hit => by
      rw [List.mem_singleton] at hit
      exact ⟨_, _, _, _, _, hit, by decide⟩)

/-- C5 witness: the amended codec round-trip theorem instantiated on the
witness curve y² = x³ + 1 over ZMod 5 with 1-byte fields, ZMod 7 scalars
and the concrete collaborator functions, every contract hypothesis
discharged by computation. -/
theorem C5_codec_roundtrip_witness :
    (∀ sc : ZMod 7, ark_scalar_decode 7 (ark_scalar_encode 7 1 sc) = sc ∧
      (ark_scalar_encode 7 1 sc).length = 1) ∧
    (∀ sc : ZMod 7, sec1_scalar_decode 7 (sec1_scalar_encode 7 1 sc) = sc ∧
      (sec1_scalar_encode 7 1 sc).length = 1) ∧
    (∀ pt, w5valid pt = true →
      ark_point_decode w5arkDeser (ark_point_encode w5arkSer pt) = .ok pt ∧
      (ark_point_encode w5arkSer pt).length = 1) ∧
    (∀ pt, w5valid pt = true →
      sec1_point_decode 5 1 w5getYs w5fromSw (sec1_point_encode 5 1 w5intoSw pt)
        = .ok pt) ∧
    (∀ pt, w5valid pt = true → pt ≠ 0 →
      (sec1_point_encode 5 1 w5intoSw pt).length = sec1_point_encoded_len 1) ∧
    sec1_point_encode 5 1 w5intoSw (0 : W5Point) = [0x00] :=
  C5_codec_roundtrip 5 1 7 1 1 w5valid w5intoSw w5fromSw w5getYs w5arkSer w5arkDeser
    (by decide) (by decide) (by decide) (by decide) (by decide) (by decide) (by decide)

/-- C7 witness: the sizing laws applied with a 254-bit scalar field and
requested ring size 100: the PIOP domain size evaluates to 512. -/
theorem C7_ring_sizing_laws_witness :
    piop_domain_size 254 100 = 512 ∧
    pcs_domain_size 254 100 = 1537 ∧
    100 + (4 + 254) ≤ piop_domain_size 254 100 ∧
    100 ≤ max_ring_size_from_piop_domain_size 254 (piop_domain_size 254 100) ∧
    piop_domain_size 254 100
      < piop_domain_size 254
          (max_ring_size_from_piop_domain_size 254 (piop_domain_size 254 100) + 1) :=
  ⟨by decide, by decide, (C7_ring_sizing_laws 254 100).2.1,
    (C7_ring_sizing_laws 254 100).2.2.2.2.2.1,
    (C7_ring_sizing_laws 254 100).2.2.2.2.2.2⟩

/-- C8 witness: a builder with 3 slots of which 1 is used rejects a
3-key append with `Err(2)` (the exact remaining-slot count) and, for a
fitting append whose SRS lookup fails, with `Err(usize::MAX)`; the state
is returned unchanged. -/
theorem C8_builder_append_contract_witness :
    VerifierKeyBuilder.append (fun pr (_ : List Nat) (_ : List Nat) => pr) (id : Nat → Nat)
        ⟨⟨3, 1, ()⟩, ()⟩ [10, 11, 12] (fun _ _ => none)
      = (⟨⟨3, 1, ()⟩, ()⟩, some 2) ∧
    VerifierKeyBuilder.append (fun pr (_ : List Nat) (_ : List Nat) => pr) (id : Nat → Nat)
        ⟨⟨3, 1, ()⟩, ()⟩ [10] (fun _ _ => none)
      = (⟨⟨3, 1, ()⟩, ()⟩, some usize_MAX) :=
  ⟨(C8_builder_append_contract (fun pr _ _ => pr) id ⟨⟨3, 1, ()⟩, ()⟩ [10, 11, 12]
      (fun _ _ => none)).1 (by decide),
   (C8_builder_append_contract (fun pr _ _ => pr) id ⟨⟨3, 1, ()⟩, ()⟩ [10]
      (fun _ _ => none)).2.1 (by decide) rfl⟩

/-- Concrete suite for the hash-to-curve witness: points in ZMod 5, a
hash whose decode always succeeds but whose cofactor clearing collapses
to the identity, so that every attempt fails. -/
def wTaiFail : TaiSuite (ZMod 5) where
  suiteId := [0xFF]
  hash := fun l => [l.sum % 256, 1]
  mod_size := 1
  decodePoint := fun l => some ((natFromLeBytes l : Nat) : ZMod 5)
  clearCofactor := fun _ => 0

set_option maxRecDepth 8000 in
/-- C9 witness: the amended theorem applied to a concrete suite: the
attempt-0 message for data `[3]` evaluates to `FF 01 03 00 00`, and since
every attempt's cofactor-cleared point is the identity, the function
returns `None` after its bounded 256 attempts. -/
theorem C9_hash_to_curve_tai_bounded_witness :
    tai_attempt_msg [0xFF] [3] 0 = [0xFF, 0x01, 3, 0x00, 0x00] ∧
    hash_to_curve_tai wTaiFail [3] = none :=
  ⟨(C9_hash_to_curve_tai_bounded wTaiFail [3]).1 0,
   (C9_hash_to_curve_tai_bounded wTaiFail [3]).2.1 (by decide)⟩

/-- C10 witness: with capacity 2 and three keys, both key constructions
equal the ones from the truncated ring and the indexed keys are exactly
the first two. -/
theorem C10_ring_key_truncation_witness :
    (RingProofParams.prover_key (fun (_ : Unit) (_ : PiopParams Unit) (l : List Nat) => (l, l))
        (id : Nat → Nat) ⟨(), 2, ()⟩ [10, 11, 12]
      = RingProofParams.prover_key (fun _ _ l => (l, l)) id ⟨(), 2, ()⟩
          (([10, 11, 12] : List Nat).take 2)) ∧
    (RingProofParams.verifier_key (fun (_ : Unit) (_ : PiopParams Unit) (l : List Nat) => (l, l))
        (id : Nat → Nat) ⟨(), 2, ()⟩ [10, 11, 12]
      = RingProofParams.verifier_key (fun _ _ l => (l, l)) id ⟨(), 2, ()⟩
          (([10, 11, 12] : List Nat).take 2)) ∧
    RingProofParams.prover_key (fun (_ : Unit) (_ : PiopParams Unit) (l : List Nat) => (l, l))
        (id : Nat → Nat) ⟨(), 2, ()⟩ [10, 11, 12] = [10, 11] :=
  ⟨(C10_ring_key_truncation (fun _ _ l => (l, l)) id ⟨(), 2, ()⟩ [10, 11, 12] (by decide)).1,
   (C10_ring_key_truncation (fun _ _ l => (l, l)) id ⟨(), 2, ()⟩ [10, 11, 12] (by decide)).2.1,
   by decide⟩

end ArkVrf
